import Mathlib

/-!
Verification of the sparse-graph helper kernels in `cogdl/utils/utils.py`.

The tensors of the source are embedded as Lean lists: integer index tensors
become `List ℕ`, real-valued weight tensors become `List ℚ` (exact rational
arithmetic standing in for floating point), and 2-D tensors become
`List (List ℚ)` (a list of rows).  Tensor-library primitives
(`torch.bincount`, `torch.cumsum`, `np.lexsort`, `scatter_add_`,
`index_select`, `repeat_interleave`, scipy's `tocsc`) are modelled by their
documented element-level semantics; `torch.exp` is transcendental and is
therefore passed as an explicit function parameter `expf` wherever the source
applies it.  `torch.argsort` (whose tie order is explicitly unspecified by its
documentation when `stable` is not set) is modelled relationally: the
permutation it returns is a parameter constrained by `isArgsortOf`.
-/

namespace CogdlUtils

/-- Maximum of a list of rationals with default 0 (`tensor.max()`; the loops of
the source only compare the maximum against positive thresholds, for which the
0 default is equivalent). -/
def listMax0 (l : List ℚ) : ℚ := l.foldr max 0

/-- Inclusive prefix sums, the documented semantics of `torch.cumsum(dim=0)`:
entry `i` is the sum of entries `0..i` of the input. -/
def cumsum (l : List ℕ) : List ℕ :=
  (List.range l.length).map fun i => (l.take (i + 1)).sum

/-- Documented semantics of `torch.bincount`: a tensor of length
`max(input)+1` (empty for empty input) whose entry `i` counts the
occurrences of `i`. -/
def bincount (l : List ℕ) : List ℕ :=
  match l with
  | [] => []
  | _ => (List.range (l.foldr max 0 + 1)).map fun i => l.count i

/-- Elementwise vector addition.  Wherever the source adds two tensors they
have equal shape, on which this function agrees with `zipWith (+)`; defining
the tail-padding variant makes its entry-level description
(`getD f 0` of the sum is the sum of the `getD f 0`) hold unconditionally. -/
def vadd : List ℚ → List ℚ → List ℚ
  | [], v => v
  | u, [] => u
  | a :: u, b :: v => (a + b) :: vadd u v

/-- Scalar multiple of a vector (`values.unsqueeze(-1) * row`). -/
def vscale (a : ℚ) (v : List ℚ) : List ℚ := v.map fun x => a * x

/-- `torch.zeros_like` for a 2-D tensor given as a list of rows. -/
def zerosLike (x : List (List ℚ)) : List (List ℚ) :=
  x.map fun r => List.replicate r.length (0 : ℚ)

/-- `spmm_scatter(indices, values, b)` from `utils.py` lines 199-208:
`output = b.index_select(0, indices[1]) * values.unsqueeze(-1)` gathers row
`col e` of `b` scaled by `values e` for every edge, and
`zeros_like(b).scatter_add_(0, indices[0]…, output)` accumulates the gathered
rows at the row indices.  The scatter is the left fold of the per-edge
updates. -/
def scatterStep (acc : List (List ℚ)) (rc : ℕ × List ℚ) : List (List ℚ) :=
  acc.set rc.1 (vadd (acc.getD rc.1 []) rc.2)

def spmm_scatter (row col : List ℕ) (values : List ℚ) (b : List (List ℚ)) :
    List (List ℚ) :=
  (List.zip row ((List.range values.length).map fun e =>
    vscale (values.getD e 0) (b.getD (col.getD e 0) []))).foldl
      scatterStep (zerosLike b)

/-- The coefficient of the sparse COO matrix built by
`torch.sparse_coo_tensor(indices, values, …)` at position `(i, j)`:
duplicate coordinates are summed. -/
def coeffAt (row col : List ℕ) (values : List ℚ) (i j : ℕ) : ℚ :=
  ((List.range values.length).map fun e =>
    if row.getD e 0 = i ∧ col.getD e 0 = j then values.getD e 0 else 0).sum

/-- `spmm_adj(indices, values, x)` from `utils.py` lines 211-215: materialize
the sparse `(num_nodes, num_nodes)` matrix from the COO data (with
`num_nodes = x.shape[0]` by default) and multiply by the dense `x` with
`torch.spmm`, whose entry semantics is the usual matrix product. -/
def spmm_adj (row col : List ℕ) (values : List ℚ) (x : List (List ℚ)) :
    List (List ℚ) :=
  (List.range x.length).map fun i =>
    (List.range (x.headD []).length).map fun f =>
      ((List.range x.length).map fun j =>
        coeffAt row col values i j * (x.getD j []).getD f 0).sum

/-- `symmetric_normalization(num_nodes, edge_index, edge_weight)` from
`utils.py` lines 189-196.  `row_sum` is `spmm_scatter` of the weights against
an all-ones `(num_nodes, 1)` column; the source then forms
`row_sum.pow(-0.5)` and clamps `inf` entries to 0.  The map
`x ↦ x ^ (-0.5)`-with-clamp is irrational, hence not a function on `ℚ`; it is
abstracted as the parameter `isqrt` (every property proved below holds for an
arbitrary `isqrt`, in particular for the clamped inverse square root). -/
def symmetric_normalization (isqrt : ℚ → ℚ) (numNodes : ℕ)
    (row col : List ℕ) (w : List ℚ) : List ℚ :=
  let rs := spmm_scatter row col w (List.replicate numNodes [(1 : ℚ)])
  (List.range w.length).map fun e =>
    isqrt ((rs.getD (col.getD e 0) []).getD 0 0) * w.getD e 0 *
      isqrt ((rs.getD (row.getD e 0) []).getD 0 0)

/-- The stable lexicographic argsort `np.lexsort((col, row))` used by
`coalesce`: indices sorted by primary key `row`, secondary key `col`, ties in
original order.  Sorting the key triple `(row i, col i, i)` by the (total)
lexicographic order realises exactly this stable permutation. -/
def lexsortPerm (row col : List ℕ) : List ℕ :=
  (List.range row.length).insertionSort fun i j =>
    row.getD i 0 < row.getD j 0 ∨
      (row.getD i 0 = row.getD j 0 ∧
        (col.getD i 0 < col.getD j 0 ∨ (col.getD i 0 = col.getD j 0 ∧ i ≤ j)))

/-- `scatter_add_` on a 1-D zero tensor with an index bound check: torch
raises a runtime error when some index is out of range of the output, which is
modelled as `none`.  Otherwise entry `i` of the result accumulates
`src e` over all positions `e` with `idx e = i`. -/
def scatterAdd1Checked (size : ℕ) (idx : List ℕ) (src : List ℚ) :
    Option (List ℚ) :=
  if idx.all (fun i => i < size) then
    some ((List.range size).map fun i =>
      (((List.range src.length).filter fun e => idx.getD e 0 = i).map
        fun e => src.getD e 0).sum)
  else none

/-- `coalesce(row, col, value)` from `utils.py` lines 494-521, line by line:
sort the pairs with the stable `np.lexsort((col, row))`; form the keys
`idx[1:] = row * num + col` over a `-1` sentinel and the mask
`idx[1:] > idx[:-1]` (true at the first member of every run of equal pairs);
if the mask is all-true return `(row, col, value)` with `value` NOT permuted
(the source never applies the sort to `value`); otherwise keep the masked
`row`/`col` and replace `value` by
`zeros(row[mask].len).scatter_add_(0, src=value, index=col)` — the index
tensor of that scatter is the full sorted `col`, so the scatter is checked
against the masked length.  `none` as a result models the runtime error the
scatter raises when `col` carries an entry outside the masked range. -/
def coalesce (row col : List ℕ) (value : Option (List ℚ)) :
    Option (List ℕ × List ℕ × Option (List ℚ)) :=
  let p := lexsortPerm row col
  let srow := p.map fun i => row.getD i 0
  let scol := p.map fun i => col.getD i 0
  let num := scol.length + 1
  let key : ℕ → ℤ := fun e => (srow.getD e 0 : ℤ) * num + (scol.getD e 0 : ℤ)
  let mask : List Bool := (List.range srow.length).map fun e =>
    decide ((if e = 0 then (-1 : ℤ) else key (e - 1)) < key e)
  if mask.all (· = true) then some (srow, scol, value)
  else
    let mrow := ((srow.zip mask).filter fun rb => rb.2).map fun rb => rb.1
    let mcol := ((scol.zip mask).filter fun rb => rb.2).map fun rb => rb.1
    match value with
    | none => some (mrow, mcol, none)
    | some v =>
      match scatterAdd1Checked mrow.length scol v with
      | none => none
      | some v' => some (mrow, mcol, some v')

/-- All entries of a CSR triple, in CSR traversal order: for each row `i`,
the slice `indptr[i] ≤ k < indptr[i+1]` contributes `(i, indices[k],
data[k])`. -/
def csrEntries (indptr indices : List ℕ) (data : List ℚ) :
    List (ℕ × ℕ × ℚ) :=
  (List.range (indptr.length - 1)).flatMap fun i =>
    (List.range (indptr.getD (i + 1) 0 - indptr.getD i 0)).map fun t =>
      ((i, indices.getD (indptr.getD i 0 + t) 0,
        data.getD (indptr.getD i 0 + t) 0) : ℕ × ℕ × ℚ)

/-- `csr2csc(indptr, indices, data)` from `utils.py` lines 370-384: build the
scipy CSR matrix and convert with `tocsc`, whose algorithm buckets the CSR
entries by column: the output `indptr` is the prefix-count of columns, and
under each column the row indices and data appear in CSR traversal order. -/
def csr2csc (indptr indices : List ℕ) (data : List ℚ) :
    List ℕ × List ℕ × List ℚ :=
  let numNodes := indptr.length - 1
  let ent := csrEntries indptr indices data
  let colIndptr :=
    0 :: cumsum ((List.range numNodes).map fun j =>
      (ent.filter fun t => t.2.1 = j).length)
  let rowIndices := (List.range numNodes).flatMap fun j =>
    (ent.filter fun t => t.2.1 = j).map fun t => t.1
  let cscData := (List.range numNodes).flatMap fun j =>
    (ent.filter fun t => t.2.1 = j).map fun t => t.2.2
  (colIndptr, rowIndices, cscData)

/-- `csc_from_csr(indptr, indices, data)` from `utils.py` lines 252-260: it
computes `csr2csc`, then stores into the cache the dictionary
`{"col_indptr": indptr, "row_indices": row_indices, "csc_data": data}` — the
value filed under `"col_indptr"` is the ORIGINAL row `indptr` argument, not
the computed `col_indptr` — and immediately reads the same key back, so the
function returns the original `indptr` together with `csr2csc`'s row indices
and data.  (The write always precedes the read of the same key, so the global
cache is transparent to a single call and needs no state in the model.) -/
def csc_from_csr (indptr indices : List ℕ) (data : List ℚ) :
    List ℕ × List ℕ × List ℚ :=
  let r := csr2csc indptr indices data
  (indptr, r.2.1, r.2.2)

/-- `sorted_coo2csr(row, col, data)` from `utils.py` lines 356-363:
`indptr = torch.bincount(row)` followed by `cumsum` and prepending a zero;
`col` and `data` are returned unchanged.  The `num_nodes` parameter of the
source is never read (the length of the result is governed by `max(row)`
alone), and the source's `torch.cat([zero, indptr])` only affects the dtype,
not the values.  -/
def sorted_coo2csr (row col : List ℕ) (data : List ℚ) :
    List ℕ × List ℕ × List ℚ :=
  (0 :: cumsum (bincount row), col, data)

/-- The `ordered=True` branch of `coo2csr` (`utils.py` lines 328-331): it
forwards to `sorted_coo2csr(row, col, data)`, dropping `num_nodes`. -/
def coo2csrOrdered (row col : List ℕ) (data : List ℚ) (_numNodes : ℕ) :
    List ℕ × List ℕ × List ℚ :=
  sorted_coo2csr row col data

/-- Relational model of `torch.argsort(row)` (used by `_coo2csr` line 309):
a permutation `p` of the edge positions under which `row` reads
non-decreasing.  The torch documentation states that the order of equivalent
elements is NOT guaranteed unless `stable=True` is passed — the source does
not pass it — so every `p` satisfying this predicate is a possible return
value. -/
def isArgsortOf (row : List ℕ) (p : List ℕ) : Prop :=
  p.Perm (List.range row.length) ∧
    List.Pairwise (· ≤ ·) (p.map fun i => row.getD i 0)

instance (row p : List ℕ) : Decidable (isArgsortOf row p) := by
  unfold isArgsortOf
  infer_instance

/-- The stable sort permutation that the claim (and the spec's words "ties
broken by original order") demands: positions sorted by the key pair
`(row i, i)`.  This is the spec-side reference definition, compared against
the code's relationally-modelled `torch.argsort`. -/
def stableArgsortSpec (row : List ℕ) : List ℕ :=
  (List.range row.length).insertionSort fun i j =>
    row.getD i 0 < row.getD j 0 ∨ (row.getD i 0 = row.getD j 0 ∧ i ≤ j)

/-- The pre-cumsum histogram of `_coo2csr` lines 315-318:
`indptr = zeros(num_nodes+1, int32)` followed by
`indptr[unique(row)+1] = counts`.  Since `torch.unique(…, return_counts=True)`
lists every distinct value exactly once with its multiplicity, the scattered
vector is pointwise: 0 at position 0 and `count srow (i-1)` at every position
`i ≥ 1` (positions whose value does not occur keep the initial zero, which
equals the count). -/
def histogram (srow : List ℕ) (numNodes : ℕ) : List ℕ :=
  (List.range (numNodes + 1)).map fun i =>
    if i = 0 then 0 else srow.count (i - 1)

/-- `_coo2csr(edge_index, data, num_nodes, ordered=False)` from `utils.py`
lines 303-325, with the `torch.argsort(edge_index[0])` permutation passed
explicitly as `p` (constrained by `isArgsortOf row p` wherever this function
is reasoned about, since torch leaves the tie order open):
`edge_index = edge_index[:, sorted_index]` permutes both rows by `p`,
`indices` is the permuted `col`, `indptr` is the cumulative sum of the
scatter-of-unique-counts `histogram` of the permuted row, and
`data = data[sorted_index]` applies the same `p` to the values. -/
def _coo2csr (row col : List ℕ) (data : Option (List ℚ)) (numNodes : ℕ)
    (p : List ℕ) : List ℕ × List ℕ × Option (List ℚ) :=
  (cumsum (histogram (p.map fun i => row.getD i 0) numNodes),
   p.map fun i => col.getD i 0,
   data.map fun d => p.map fun i => d.getD i 0)

/-- `csr2coo(indptr, indices, data)` from `utils.py` lines 387-392:
`row = torch.arange(num_nodes).repeat_interleave(indptr[1:] - indptr[:-1])`
(each node id `i` repeated as many times as its CSR slice is long), with
`indices` and `data` passed through as the column and value arrays. -/
def csr2coo (indptr indices : List ℕ) (data : List ℚ) :
    List ℕ × List ℕ × List ℚ :=
  ((List.range (indptr.length - 1)).flatMap fun i =>
    List.replicate (indptr.getD (i + 1) 0 - indptr.getD i 0) i,
   indices, data)

/-- The indexed-assignment loop underlying
`loop_weight[row[inv_mask]] = remaining_edge_weight`: process the
(index, value) pairs in order, later writes winning (torch's semantics for
repeated indices in an indexed assignment). -/
def setAll (assigns : List (ℕ × ℚ)) (init : List ℚ) : List ℚ :=
  assigns.foldl (fun acc t => acc.set t.1 t.2) init

/-- `add_remaining_self_loops(edge_index, edge_weight, fill_value, num_nodes)`
from `utils.py` lines 151-176: with `mask = row != col`, keep
`edge_index[:, mask]` and `edge_weight[mask]`, append the self-loop block
`loop_index = arange(N)` (both rows), build `loop_weight = full(N, fill)`
overwritten at the dropped self-loops' rows with their original weights
(`loop_weight[row[inv_mask]] = edge_weight[inv_mask]`), and concatenate.
Edges are handled as aligned triples `((row, col), weight)`. -/
def add_remaining_self_loops (row col : List ℕ) (w : List ℚ) (fill : ℚ)
    (numNodes : ℕ) : (List ℕ × List ℕ) × List ℚ :=
  let pw := (row.zip col).zip w
  let kept := pw.filter fun t => t.1.1 != t.1.2
  let selfAssigns := (pw.filter fun t => t.1.1 == t.1.2).map fun t =>
    (t.1.1, t.2)
  let loopW := setAll selfAssigns (List.replicate numNodes fill)
  ((kept.map (fun t => t.1.1) ++ List.range numNodes,
    kept.map (fun t => t.1.2) ++ List.range numNodes),
   kept.map (fun t => t.2) ++ loopW)

/-- The COO → CSR → COO composition of claim C5: `_coo2csr` (with its argsort
permutation `p`) followed by `csr2coo`. -/
def coo_roundtrip (row col : List ℕ) (data : List ℚ) (numNodes : ℕ)
    (p : List ℕ) : List ℕ × List ℕ × List ℚ :=
  csr2coo (_coo2csr row col (some data) numNodes p).1
    (_coo2csr row col (some data) numNodes p).2.1
    ((_coo2csr row col (some data) numNodes p).2.2.getD [])

/-- The 2-D `scatter_add_` of `mul_edge_softmax_` (`utils.py` lines 460-461):
`zeros(shape0, d).scatter_add_(0, indices[0]…, values)`, whose documented
semantics is `out[i][k] = Σ over positions e with index e = i of
src[e][k]`. -/
def scatterAddRows (rowIdx : List ℕ) (src : List (List ℚ)) (N d : ℕ) :
    List (List ℚ) :=
  (List.range N).map fun i => (List.range d).map fun k =>
    (((List.range src.length).filter fun e => rowIdx.getD e 0 == i).map
      fun e => (src.getD e []).getD k 0).sum

/-- `edge_softmax_(indices, values, shape)` from `utils.py` lines 405-418:
exponentiate the edge values (`torch.exp` is transcendental and passed as the
function parameter `expf`; the real exponential is strictly positive, while
the IEEE-754 `exp` underflows to exactly 0 below ≈ -745), compute the
per-source-node sums by `spmm_scatter` against an all-ones column, and divide
each exponentiated value by the sum at its source node.  This routine has no
epsilon and no NaN substitution; an entry whose denominator is zero is a
floating-point division by zero (`0/0 = NaN`, else `±Inf`), modelled as
`none`. -/
def edge_softmax_ (expf : ℚ → ℚ) (row col : List ℕ) (values : List ℚ)
    (numNodes : ℕ) : List (Option ℚ) :=
  let ev := values.map expf
  let ns := spmm_scatter row col ev (List.replicate numNodes [(1 : ℚ)])
  (List.range ev.length).map fun e =>
    if (ns.getD (row.getD e 0) []).getD 0 0 = 0 then none
    else some (ev.getD e 0 / (ns.getD (row.getD e 0) []).getD 0 0)

/-- `mul_edge_softmax_(indices, values, shape)` from `utils.py` lines
448-464: exponentiate the 2-D edge values, scatter-add into a `(shape0, d)`
accumulator at the source rows, divide by `output[indices[0]] + 1e-8`, and
substitute 0 for NaN entries (`softmax_values[torch.isnan(…)] = 0`).
Entrywise: a zero denominator with zero numerator is the floating-point
`0/0 = NaN`, which the substitution turns into `some 0`; a zero denominator
with a nonzero numerator is `±Inf`, which `isnan` does not catch, modelled
`none`; otherwise the exact quotient.  The literal `1 / 100000000` stands for
the float constant `1e-8`. -/
def mul_edge_softmax_ (expf : ℚ → ℚ) (row : List ℕ)
    (values : List (List ℚ)) (numNodes : ℕ) : List (List (Option ℚ)) :=
  let ev := values.map fun r => r.map expf
  let d := (values.headD []).length
  let ns := scatterAddRows row ev numNodes d
  (List.range ev.length).map fun e => (List.range d).map fun k =>
    if (ns.getD (row.getD e 0) []).getD k 0 + 1 / 100000000 = 0 then
      (if (ev.getD e []).getD k 0 = 0 then some 0 else none)
    else some ((ev.getD e []).getD k 0 /
      ((ns.getD (row.getD e 0) []).getD k 0 + 1 / 100000000))

/-- Modelled from the spec: the sparse Graph handle of §3 — an edge list plus
a node count.  The Graph class itself is not part of the source file; per
§4.4 the optional `out_norm`/`in_norm` scaling vectors are not set in the
plain edge-softmax use, and `edge_softmax` installs `exp(edge_val)` as the
edge weight inside `graph.local_graph()` before calling `spmm`. -/
structure SGraph where
  row : List ℕ
  col : List ℕ
  numNodes : ℕ

/-- The stabilization loop of `edge_softmax` (`utils.py` lines 422-425):
`while edge_val.max() > 10: edge_val -= edge_val / 2`, the max recomputed
each pass.  `listMax0` is the tensor max (its 0 default answers the
comparison against 10 exactly as the true max does).  Each pass halves every
entry (`v - v/2 = v/2`), halving the maximum, so the ceiling of the maximum
strictly decreases while it exceeds 10. -/
def dampLoop (vals : List ℚ) : List ℚ :=
  if listMax0 vals ≤ 10 then vals
  else dampLoop (vals.map fun v => v - v / 2)
termination_by (Int.ceil (listMax0 vals)).toNat
decreasing_by
  rename_i h
  have hmax_all : ∀ l : List ℚ,
      listMax0 (l.map fun v => v - v / 2) = listMax0 l / 2 := by
    intro l
    induction l with
    | nil => simp [listMax0]
    | cons a t ih =>
      simp only [listMax0, List.map_cons, List.foldr_cons] at ih ⊢
      rw [ih]
      have h1 : a - a / 2 = a / 2 := by ring
      rw [h1]
      rcases le_total a (List.foldr max 0 t) with hle | hle
      · rw [max_eq_right hle, max_eq_right (by linarith)]
      · rw [max_eq_left hle, max_eq_left (by linarith)]
  rw [hmax_all vals]
  have h10 : (10 : ℚ) < listMax0 vals := not_le.mp h
  have hc1 : Int.ceil (listMax0 vals / 2) ≤ Int.ceil (listMax0 vals - 5) :=
    Int.ceil_le_ceil (by linarith)
  have hc2 : Int.ceil (listMax0 vals - 5) = Int.ceil (listMax0 vals) - 5 := by
    exact_mod_cast Int.ceil_sub_int (listMax0 vals) (5 : ℤ)
  have hc3 : (11 : ℤ) ≤ Int.ceil (listMax0 vals) := by
    have hle := Int.le_ceil (listMax0 vals)
    have h11 : (10 : ℚ) < (Int.ceil (listMax0 vals) : ℚ) :=
      lt_of_lt_of_le h10 hle
    exact_mod_cast h11
  omega

/-- `edge_softmax(graph, edge_val)` from `utils.py` lines 421-434: damp the
values while their maximum exceeds 10, exponentiate (`torch.exp` abstracted
as `expf`), install the result as the graph's edge weight, compute the
per-node sums with `spmm(graph, ones(num_nodes, 1))` — the installed weight
does not require grad and no fast kernel is loaded, so `spmm` dispatches to
`spmm_adj` (`utils.py` line 245), with no norm scaling on the spec-modelled
Graph handle — and divide each exponentiated value by the sum at its source
row. -/
def edge_softmax (expf : ℚ → ℚ) (g : SGraph) (vals : List ℚ) : List ℚ :=
  let ev := (dampLoop vals).map expf
  let ns := spmm_adj g.row g.col ev (List.replicate g.numNodes [(1 : ℚ)])
  (List.range ev.length).map fun e =>
    ev.getD e 0 / ((ns.getD (g.row.getD e 0) []).getD 0 0)

/-- `mul_edge_softmax(graph, edge_val)` from `utils.py` lines 437-445: apply
`edge_softmax` to each of the `edge_val.shape[1]` columns and `torch.stack`
the per-column results — so the output is the `[d, E]` stack (the source's
own docstring says "shape: [d, E]"). -/
def mul_edge_softmax (expf : ℚ → ℚ) (g : SGraph)
    (ev : List (List ℚ)) : List (List ℚ) :=
  (List.range (ev.headD []).length).map fun i =>
    edge_softmax expf g (ev.map fun r => r.getD i 0)

end CogdlUtils

namespace CogdlUtils

/-- Entry `(i, f)` of a 2-D tensor given as a list of rows, defaulting 0. -/
def getE (m : List (List ℚ)) (i f : ℕ) : ℚ := (m.getD i []).getD f 0

/-- Per-edge contribution sum: the scatter-path value of entry `i` against
node values `xval`. -/
def edgeListSum (ts : List (ℕ × ℕ × ℚ)) (i : ℕ) (xval : ℕ → ℚ) : ℚ :=
  (ts.map fun t => if t.1 = i then t.2.2 * xval t.2.1 else 0).sum

/-- Coefficient `(i, j)` of the COO matrix described by the triple list. -/
def coeffList (ts : List (ℕ × ℕ × ℚ)) (i j : ℕ) : ℚ :=
  (ts.map fun t => if t.1 = i ∧ t.2.1 = j then t.2.2 else 0).sum

theorem vadd_getD (u v : List ℚ) (f : ℕ) :
    (vadd u v).getD f 0 = u.getD f 0 + v.getD f 0 := by
  induction u generalizing v f with
  | nil =>
    cases v <;> cases f <;> simp [vadd]
  | cons a u ih =>
    cases v with
    | nil => cases f <;> simp [vadd]
    | cons b v =>
      cases f with
      | zero => simp [vadd]
      | succ n =>
        simp only [vadd, List.getD_cons_succ]
        exact ih v n

theorem vscale_getD (a : ℚ) (v : List ℚ) (f : ℕ) :
    (vscale a v).getD f 0 = a * v.getD f 0 := by
  induction v generalizing f with
  | nil => simp [vscale]
  | cons b v ih =>
    cases f with
    | zero => simp [vscale]
    | succ n =>
      simp only [vscale, List.map_cons, List.getD_cons_succ]
      simp only [vscale] at ih
      exact ih n

theorem rangeMap_getD {α : Type} [Inhabited α] (n : ℕ) (f : ℕ → α) (e : ℕ)
    (d : α) (h : e < n) : ((List.range n).map f).getD e d = f e := by
  rw [List.getD_eq_getElem _ _ (by simpa using h)]
  simp

theorem getD_eq_range_map (l : List ℚ) :
    l = (List.range l.length).map fun i => l.getD i 0 := by
  apply List.ext_getElem
  · simp
  · intro i h1 h2
    simp [List.getD_eq_getElem?_getD, List.getElem?_eq_getElem h1]

theorem getD_eq_range_map_nat (l : List ℕ) :
    l = (List.range l.length).map fun i => l.getD i 0 := by
  apply List.ext_getElem
  · simp
  · intro i h1 h2
    simp [List.getD_eq_getElem?_getD, List.getElem?_eq_getElem h1]

theorem countP_lt_succ (l : List ℕ) (k : ℕ) :
    l.countP (fun r => decide (r < k + 1)) =
      l.countP (fun r => decide (r < k)) + l.count k := by
  induction l with
  | nil => simp
  | cons a t ih =>
    by_cases hak : a = k
    · subst hak
      simp only [List.countP_cons, List.count_cons, ih]
      simp
      omega
    · simp only [List.countP_cons, List.count_cons, ih]
      have h1 : (a < k + 1) ↔ (a < k) := by omega
      simp [h1, hak]
      by_cases hlt : a < k
      · simp [hlt]
        ring
      · simp [hlt]

theorem sum_range_count (l : List ℕ) (k : ℕ) :
    ((List.range k).map fun i => l.count i).sum =
      l.countP (fun r => decide (r < k)) := by
  induction k with
  | zero => simp [List.countP_eq_zero]
  | succ k ih =>
    rw [List.range_succ, List.map_append, List.sum_append, countP_lt_succ]
    simp [ih]

theorem le_foldr_max (l : List ℕ) (x : ℕ) (hx : x ∈ l) :
    x ≤ l.foldr max 0 := by
  induction l with
  | nil => simp at hx
  | cons a t ih =>
    simp only [List.foldr_cons]
    rcases List.mem_cons.mp hx with h | h
    · omega
    · exact le_trans (ih h) (le_max_right _ _)

theorem vadd_length (u v : List ℚ) :
    (vadd u v).length = max u.length v.length := by
  induction u generalizing v with
  | nil => cases v <;> simp [vadd]
  | cons a u ih =>
    cases v with
    | nil => simp [vadd]
    | cons b v => simp [vadd, ih]; omega

theorem replicate_getD_zero (n f : ℕ) :
    (List.replicate n (0 : ℚ)).getD f 0 = 0 := by
  induction n generalizing f with
  | zero => simp
  | succ m ih => cases f <;> simp [List.replicate_succ, ih]

theorem zerosLike_getE (x : List (List ℚ)) (i f : ℕ) :
    getE (zerosLike x) i f = 0 := by
  unfold getE zerosLike
  by_cases hi : i < x.length
  · have h1 : (List.map (fun r => List.replicate r.length (0 : ℚ)) x).getD i []
        = List.replicate (x[i].length) (0 : ℚ) := by
      rw [List.getD_eq_getElem _ _ (by simpa using hi), List.getElem_map]
    rw [h1, replicate_getD_zero]
  · have h1 : (List.map (fun r => List.replicate r.length (0 : ℚ)) x).getD i []
        = [] := by
      apply List.getD_eq_default
      simpa using not_lt.mp hi
    rw [h1]
    rfl

theorem scatterFold_length (l : List (ℕ × List ℚ)) (acc : List (List ℚ)) :
    (l.foldl scatterStep acc).length = acc.length := by
  induction l generalizing acc with
  | nil => rfl
  | cons t l ih =>
    rw [List.foldl_cons, ih]
    simp only [scatterStep, List.length_set]

theorem set_getD (acc : List (List ℚ)) (r : ℕ) (w : List ℚ) (i : ℕ)
    (hr : r < acc.length) :
    (acc.set r w).getD i [] = if r = i then w else acc.getD i [] := by
  rw [List.getD_eq_getElem?_getD, List.getElem?_set, List.getD_eq_getElem?_getD]
  by_cases h : r = i
  · subst h
    simp [hr]
  · simp [h]

theorem scatterFold_getE (l : List (ℕ × List ℚ)) (acc : List (List ℚ))
    (hin : ∀ t ∈ l, t.1 < acc.length) (i f : ℕ) :
    getE (l.foldl scatterStep acc) i f =
      getE acc i f + (l.map fun t => if t.1 = i then t.2.getD f 0 else 0).sum := by
  induction l generalizing acc with
  | nil => simp
  | cons t l ih =>
    have ht : t.1 < acc.length := hin t (by simp)
    have hrest : ∀ s ∈ l, s.1 < (scatterStep acc t).length := by
      intro s hs
      simp only [scatterStep, List.length_set]
      exact hin s (by simp [hs])
    rw [List.foldl_cons, ih _ hrest]
    have hstep : getE (scatterStep acc t) i f =
        getE acc i f + (if t.1 = i then t.2.getD f 0 else 0) := by
      unfold getE scatterStep
      rw [set_getD _ _ _ _ ht]
      by_cases h : t.1 = i
      · rw [h, if_pos rfl, if_pos rfl, vadd_getD]
      · rw [if_neg h, if_neg h, add_zero]
    rw [hstep]
    simp only [List.map_cons, List.sum_cons]
    ring

theorem scatterFold_rowlen (l : List (ℕ × List ℚ)) (acc : List (List ℚ))
    (F : ℕ) (hacc : ∀ r ∈ acc, r.length = F) (hrows : ∀ t ∈ l, t.2.length = F)
    (r : List ℚ) (hr : r ∈ l.foldl scatterStep acc) : r.length = F := by
  induction l generalizing acc with
  | nil => exact hacc r hr
  | cons t l ih =>
    refine ih (scatterStep acc t) ?_ (fun s hs => hrows s (by simp [hs])) hr
    intro s hs
    rcases List.mem_or_eq_of_mem_set hs with h | h
    · exact hacc s h
    · subst h
      rw [vadd_length, hrows t (by simp)]
      by_cases hidx : t.1 < acc.length
      · rw [List.getD_eq_getElem _ _ hidx]
        rw [hacc _ (List.getElem_mem hidx)]
        omega
      · rw [List.getD_eq_default _ _ (by omega)]
        simp

theorem sum_map_add {α : Type} (l : List α) (f g : α → ℚ) :
    (l.map fun a => f a + g a).sum = (l.map f).sum + (l.map g).sum := by
  induction l with
  | nil => simp
  | cons a l ih => simp [ih]; ring

theorem sum_range_single (N c : ℕ) (hc : c < N) (g : ℕ → ℚ) :
    ((List.range N).map fun j => if c = j then g j else 0).sum = g c := by
  induction N with
  | zero => omega
  | succ N ih =>
    rw [List.range_succ, List.map_append, List.sum_append]
    by_cases h : c = N
    · subst h
      have : ((List.range c).map fun j => if c = j then g j else 0).sum = 0 := by
        apply List.sum_eq_zero
        intro x hx
        rcases List.mem_map.mp hx with ⟨j, hj, hxj⟩
        have hne : ¬ c = j := by
          have := List.mem_range.mp hj
          omega
        rw [← hxj, if_neg hne]
      simp [this]
    · have hcN : c < N := by omega
      rw [ih hcN]
      simp [h]

theorem edgeListSum_eq_matmul (ts : List (ℕ × ℕ × ℚ)) (i N : ℕ)
    (xval : ℕ → ℚ) (hcol : ∀ t ∈ ts, t.2.1 < N) :
    edgeListSum ts i xval =
      ((List.range N).map fun j => coeffList ts i j * xval j).sum := by
  induction ts with
  | nil =>
    unfold edgeListSum coeffList
    simp
  | cons t ts ih =>
    unfold edgeListSum coeffList
    unfold edgeListSum coeffList at ih
    simp only [List.map_cons, List.sum_cons]
    rw [ih (fun s hs => hcol s (by simp [hs]))]
    have hexp : ((List.range N).map fun j =>
        ((if t.1 = i ∧ t.2.1 = j then t.2.2 else 0) +
          (ts.map fun s => if s.1 = i ∧ s.2.1 = j then s.2.2 else 0).sum) *
            xval j).sum =
        ((List.range N).map fun j =>
          (if t.1 = i ∧ t.2.1 = j then t.2.2 else 0) * xval j).sum +
        ((List.range N).map fun j =>
          (ts.map fun s => if s.1 = i ∧ s.2.1 = j then s.2.2 else 0).sum *
            xval j).sum := by
      rw [← sum_map_add]
      congr 1
      apply List.map_congr_left
      intro j _
      ring
    rw [hexp]
    congr 1
    by_cases h : t.1 = i
    · have : ((List.range N).map fun j =>
          (if t.1 = i ∧ t.2.1 = j then t.2.2 else 0) * xval j).sum =
          ((List.range N).map fun j =>
            if t.2.1 = j then t.2.2 * xval j else 0).sum := by
        congr 1
        apply List.map_congr_left
        intro j _
        by_cases hj : t.2.1 = j <;> simp [h, hj]
      rw [this, sum_range_single _ _ (hcol t (by simp)), h]
      simp
    · have : ((List.range N).map fun j =>
          (if t.1 = i ∧ t.2.1 = j then t.2.2 else 0) * xval j).sum = 0 := by
        apply List.sum_eq_zero
        intro x hx
        rcases List.mem_map.mp hx with ⟨j, _, hxj⟩
        have hne : ¬ (t.1 = i ∧ t.2.1 = j) := fun hc => h hc.1
        rw [← hxj, if_neg hne, zero_mul]
      rw [this]
      simp [h]

theorem spmm_scatter_getE (row col : List ℕ) (values : List ℚ)
    (b : List (List ℚ)) (hrl : row.length = values.length)
    (hr : ∀ a ∈ row, a < b.length) (i f : ℕ) :
    getE (spmm_scatter row col values b) i f =
      ((List.range values.length).map fun e =>
        if row.getD e 0 = i
        then values.getD e 0 * getE b (col.getD e 0) f
        else 0).sum := by
  have hin : ∀ t ∈ List.zip row ((List.range values.length).map fun e =>
      vscale (values.getD e 0) (b.getD (col.getD e 0) [])),
      t.1 < (zerosLike b).length := by
    intro t hts
    obtain ⟨a, g⟩ := t
    have hmem := (List.of_mem_zip hts).1
    have hlen : (zerosLike b).length = b.length := by simp [zerosLike]
    rw [hlen]
    exact hr _ hmem
  unfold spmm_scatter
  rw [scatterFold_getE _ _ hin i f, zerosLike_getE, zero_add]
  conv_lhs => rw [show row = (List.range values.length).map
    (fun e => row.getD e 0) from by rw [← hrl]; exact getD_eq_range_map_nat row]
  rw [List.zip_map', List.map_map]
  congr 1
  apply List.map_congr_left
  intro e _
  simp only [Function.comp]
  by_cases h : row.getD e 0 = i
  · rw [if_pos h, if_pos h, vscale_getD]
    rfl
  · rw [if_neg h, if_neg h]

theorem spmm_adj_getE (row col : List ℕ) (values : List ℚ)
    (x : List (List ℚ)) (i f : ℕ) (hi : i < x.length)
    (hf : f < (x.headD []).length) :
    getE (spmm_adj row col values x) i f =
      ((List.range x.length).map fun j =>
        coeffAt row col values i j * (x.getD j []).getD f 0).sum := by
  unfold spmm_adj getE
  rw [rangeMap_getD _ _ _ _ hi, rangeMap_getD _ _ _ _ hf]

theorem coeffAt_eq_coeffList (row col : List ℕ) (values : List ℚ) (i j : ℕ) :
    coeffAt row col values i j =
      coeffList ((List.range values.length).map fun e =>
        (row.getD e 0, col.getD e 0, values.getD e 0)) i j := by
  unfold coeffAt coeffList
  rw [List.map_map]
  rfl

theorem ext_getE (A B : List (List ℚ)) (F : ℕ) (hlen : A.length = B.length)
    (hA : ∀ r ∈ A, r.length = F) (hB : ∀ r ∈ B, r.length = F)
    (h : ∀ i, i < A.length → ∀ f, f < F → getE A i f = getE B i f) :
    A = B := by
  apply List.ext_getElem hlen
  intro i h1 h2
  have hAF : A[i].length = F := hA _ (List.getElem_mem h1)
  have hBF : B[i].length = F := hB _ (List.getElem_mem h2)
  apply List.ext_getElem (by rw [hAF, hBF])
  intro f hf1 hf2
  have hgg := h i h1 f (by rw [← hAF]; exact hf1)
  unfold getE at hgg
  rw [List.getD_eq_getElem _ _ h1, List.getD_eq_getElem _ _ h2] at hgg
  rw [List.getD_eq_getElem _ _ hf1, List.getD_eq_getElem _ _ hf2] at hgg
  exact hgg

theorem sum_range_single_nat (N c : ℕ) (hc : c < N) (g : ℕ → ℕ) :
    ((List.range N).map fun j => if j = c then g j else 0).sum = g c := by
  induction N with
  | zero => omega
  | succ N ih =>
    rw [List.range_succ, List.map_append, List.sum_append]
    by_cases h : c = N
    · subst h
      have hz : ((List.range c).map fun j => if j = c then g j else 0).sum = 0 := by
        apply List.sum_eq_zero
        intro x hx
        rcases List.mem_map.mp hx with ⟨j, hj, hxj⟩
        have hne : ¬ j = c := by
          have := List.mem_range.mp hj
          omega
        rw [← hxj, if_neg hne]
      simp [hz]
    · have hcN : c < N := by omega
      rw [ih hcN]
      simp [Ne.symm h]

theorem hist_partial_sum (l : List ℕ) (i : ℕ) :
    ((List.range (i + 1)).map fun j =>
      if j = 0 then 0 else l.count (j - 1)).sum =
      l.countP (fun r => decide (r < i)) := by
  induction i with
  | zero =>
    rw [show List.range 1 = [0] from rfl]
    simp [List.countP_eq_zero]
  | succ i ih =>
    rw [List.range_succ, List.map_append, List.sum_append, ih, countP_lt_succ]
    simp

theorem cumsum_hist_getD (srow : List ℕ) (numNodes i : ℕ)
    (hi : i ≤ numNodes) :
    (cumsum (histogram srow numNodes)).getD i 0 =
      srow.countP (fun r => decide (r < i)) := by
  unfold cumsum
  rw [rangeMap_getD _ _ _ _ (by simp [histogram]; omega)]
  unfold histogram
  rw [← List.map_take, List.take_range]
  have hmin : min (i + 1) (numNodes + 1) = i + 1 := by omega
  rw [hmin, hist_partial_sum]

theorem csr2coo_row_of_sorted (srow : List ℕ) (numNodes : ℕ)
    (hsort : List.Pairwise (· ≤ ·) srow) (hin : ∀ a ∈ srow, a < numNodes) :
    ((List.range numNodes).flatMap fun i =>
      List.replicate (srow.count i) i) = srow := by
  apply List.eq_of_perm_of_sorted ?_ ?_ hsort
  · rw [List.perm_iff_count]
    intro a
    rw [List.flatMap_def, List.count_flatten, List.map_map]
    have hpt : ∀ i ∈ List.range numNodes,
        (List.count a ∘ fun i => List.replicate (srow.count i) i) i =
          if i = a then srow.count a else 0 := by
      intro i _
      simp only [Function.comp, List.count_replicate]
      by_cases h : i = a
      · subst h
        simp
      · simp [h]
    rw [List.map_congr_left hpt]
    by_cases ha : a < numNodes
    · exact sum_range_single_nat numNodes a ha _
    · have h0 : srow.count a = 0 :=
        List.count_eq_zero.mpr fun hmem => ha (hin a hmem)
      rw [h0]
      apply List.sum_eq_zero
      intro x hx
      rcases List.mem_map.mp hx with ⟨j, _, hxj⟩
      rw [← hxj]
      by_cases hja : j = a
      · rw [if_pos hja]
      · rw [if_neg hja]
  · rw [List.flatMap_def]
    apply List.pairwise_flatten.mpr
    constructor
    · intro l hl
      rcases List.mem_map.mp hl with ⟨i, _, rfl⟩
      exact List.pairwise_replicate.mpr (Or.inr le_rfl)
    · rw [List.pairwise_map]
      apply (List.pairwise_lt_range numNodes).imp
      intro i j hij x hx y hy
      rw [List.eq_of_mem_replicate hx, List.eq_of_mem_replicate hy]
      omega

theorem set_getD_q (l : List ℚ) (r : ℕ) (v : ℚ) (i : ℕ) (hr : r < l.length) :
    (l.set r v).getD i 0 = if r = i then v else l.getD i 0 := by
  rw [List.getD_eq_getElem?_getD, List.getElem?_set, List.getD_eq_getElem?_getD]
  by_cases h : r = i
  · subst h
    simp [hr]
  · simp [h]

theorem set_getD_ne (l : List ℚ) (r : ℕ) (v : ℚ) (i : ℕ) (h : ¬ r = i) :
    (l.set r v).getD i 0 = l.getD i 0 := by
  rw [List.getD_eq_getElem?_getD, List.getElem?_set, List.getD_eq_getElem?_getD]
  simp [h]

theorem replicate_getD_fill (n i : ℕ) (v : ℚ) (hi : i < n) :
    (List.replicate n v).getD i 0 = v := by
  rw [List.getD_eq_getElem _ _ (by simpa using hi)]
  simp

theorem setAll_length (assigns : List (ℕ × ℚ)) (init : List ℚ) :
    (setAll assigns init).length = init.length := by
  induction assigns generalizing init with
  | nil => rfl
  | cons t ts ih =>
    show (setAll ts (init.set t.1 t.2)).length = _
    rw [ih, List.length_set]

theorem setAll_not_mem (assigns : List (ℕ × ℚ)) (init : List ℚ) (i : ℕ)
    (h : ∀ t ∈ assigns, t.1 ≠ i) :
    (setAll assigns init).getD i 0 = init.getD i 0 := by
  induction assigns generalizing init with
  | nil => rfl
  | cons t ts ih =>
    show (setAll ts (init.set t.1 t.2)).getD i 0 = _
    rw [ih _ (fun s hs => h s (by simp [hs])),
      set_getD_ne _ _ _ _ (h t (by simp))]

theorem setAll_unique (assigns : List (ℕ × ℚ)) (init : List ℚ) (i : ℕ)
    (hcount : (assigns.map Prod.fst).count i ≤ 1)
    (hin : ∀ t ∈ assigns, t.1 < init.length) :
    (setAll assigns init).getD i 0 =
      ((assigns.find? fun t => t.1 == i).map Prod.snd).getD
        (init.getD i 0) := by
  induction assigns generalizing init with
  | nil => rfl
  | cons t ts ih =>
    by_cases h : t.1 = i
    · rw [List.find?_cons_of_pos _ (by simp [h])]
      show (setAll ts (init.set t.1 t.2)).getD i 0 = t.2
      have hz : (ts.map Prod.fst).count i = 0 := by
        have hc := hcount
        rw [List.map_cons, List.count_cons] at hc
        simp [h] at hc
        omega
      have hnone : ∀ s ∈ ts, s.1 ≠ i := by
        intro s hs hsi
        have hmem : i ∈ ts.map Prod.fst :=
          hsi ▸ List.mem_map_of_mem Prod.fst hs
        rw [List.count_eq_zero] at hz
        exact hz hmem
      rw [setAll_not_mem ts _ i hnone,
        set_getD_q _ _ _ _ (hin t (by simp)), if_pos h]
    · rw [List.find?_cons_of_neg _ (by simp [h])]
      show (setAll ts (init.set t.1 t.2)).getD i 0 = _
      rw [ih (init.set t.1 t.2) ?_ ?_]
      · rw [set_getD_ne _ _ _ _ h]
      · refine le_trans ?_ hcount
        rw [List.map_cons, List.count_cons]
        omega
      · intro s hs
        rw [List.length_set]
        exact hin s (by simp [hs])

theorem find?_filter {α : Type} (l : List α) (q p : α → Bool) :
    (l.filter q).find? p = l.find? fun a => q a && p a := by
  induction l with
  | nil => rfl
  | cons a t ih =>
    by_cases hq : q a
    · rw [List.filter_cons_of_pos hq]
      by_cases hp : p a
      · rw [List.find?_cons_of_pos _ hp,
          List.find?_cons_of_pos _ (by simp [hq, hp])]
      · rw [List.find?_cons_of_neg _ hp,
          List.find?_cons_of_neg _ (by simp [hq, hp]), ih]
    · rw [List.filter_cons_of_neg (by simpa using hq),
        List.find?_cons_of_neg _ (by simp [hq]), ih]

theorem find?_congr {α : Type} (l : List α) (p q : α → Bool)
    (h : ∀ a ∈ l, p a = q a) : l.find? p = l.find? q := by
  induction l with
  | nil => rfl
  | cons a t ih =>
    by_cases hp : p a
    · rw [List.find?_cons_of_pos _ hp,
        List.find?_cons_of_pos _ (by rw [← h a (by simp)]; exact hp)]
    · rw [List.find?_cons_of_neg _ hp,
        List.find?_cons_of_neg _ (by rw [← h a (by simp)]; exact hp),
        ih (fun s hs => h s (by simp [hs]))]

theorem zip_self {α : Type} (l : List α) : l.zip l = l.map fun a => (a, a) := by
  induction l with
  | nil => rfl
  | cons a t ih => simp [ih]

theorem filter_map_range_single {α : Type} (N c : ℕ) (hc : c < N)
    (g : ℕ → α) (q : α → Bool)
    (hq : ∀ j, j < N → (q (g j) = true ↔ j = c)) :
    ((List.range N).map g).filter q = [g c] := by
  induction N with
  | zero => omega
  | succ N ih =>
    rw [List.range_succ, List.map_append, List.filter_append]
    by_cases h : c = N
    · subst h
      have h1 : ((List.range c).map g).filter q = [] := by
        rw [List.filter_eq_nil_iff]
        intro a ha
        rcases List.mem_map.mp ha with ⟨j, hj, rfl⟩
        have hjc := List.mem_range.mp hj
        intro hqa
        have := (hq j (by omega)).mp hqa
        omega
      have h2 : (List.map g [c]).filter q = [g c] := by
        show List.filter q [g c] = [g c]
        rw [List.filter_cons_of_pos ((hq c (by omega)).mpr rfl)]
        rfl
      rw [h1, h2]
      rfl
    · have hcN : c < N := by omega
      have h2 : (List.map g [N]).filter q = [] := by
        show List.filter q [g N] = []
        rw [List.filter_cons_of_neg (fun hqa => by
          have := (hq N (by omega)).mp hqa
          omega)]
        rfl
      rw [ih hcN (fun j hj => hq j (by omega)), h2]
      simp

theorem ones_getE (N c : ℕ) :
    getE (List.replicate N [(1 : ℚ)]) c 0 = if c < N then 1 else 0 := by
  unfold getE
  by_cases h : c < N
  · have h1 : (List.replicate N [(1 : ℚ)]).getD c [] = [1] := by
      rw [List.getD_eq_getElem _ _ (by simpa using h), List.getElem_replicate]
    rw [h1, if_pos h]
    rfl
  · have h1 : (List.replicate N [(1 : ℚ)]).getD c [] = [] :=
      List.getD_eq_default _ _ (by simpa using not_lt.mp h)
    rw [h1, if_neg h]
    rfl

theorem map_getD_lt (f : ℚ → ℚ) (l : List ℚ) (e : ℕ) (he : e < l.length) :
    (l.map f).getD e 0 = f (l.getD e 0) := by
  rw [List.getD_eq_getElem _ _ (by simpa using he),
    List.getD_eq_getElem _ _ he, List.getElem_map]

theorem mapmap_getD_nonneg (expf : ℚ → ℚ) (hnn : ∀ x, 0 ≤ expf x)
    (vv : List (List ℚ)) (e k : ℕ) :
    0 ≤ ((vv.map fun r => r.map expf).getD e []).getD k 0 := by
  by_cases he : e < vv.length
  · have h1 : (vv.map fun r => r.map expf).getD e [] = vv[e].map expf := by
      rw [List.getD_eq_getElem _ _ (by simpa using he), List.getElem_map]
    rw [h1]
    by_cases hk : k < (vv[e]).length
    · rw [map_getD_lt expf _ k hk]
      exact hnn _
    · rw [List.getD_eq_default _ _ (by simpa using not_lt.mp hk)]
  · have h1 : (vv.map fun r => r.map expf).getD e [] = [] :=
      List.getD_eq_default _ _ (by simpa using not_lt.mp he)
    rw [h1]
    simp

theorem scatterAddRows_nonneg (rowIdx : List ℕ) (src : List (List ℚ))
    (N d : ℕ) (hsrc : ∀ e k, 0 ≤ (src.getD e []).getD k 0) (i k : ℕ) :
    0 ≤ ((scatterAddRows rowIdx src N d).getD i []).getD k 0 := by
  by_cases hi : i < N
  · have h1 : (scatterAddRows rowIdx src N d).getD i [] =
        (List.range d).map fun k =>
          (((List.range src.length).filter fun e =>
            rowIdx.getD e 0 == i).map
              fun e => (src.getD e []).getD k 0).sum := by
      unfold scatterAddRows
      rw [rangeMap_getD _ _ _ _ hi]
    rw [h1]
    by_cases hk : k < d
    · rw [rangeMap_getD _ _ _ _ hk]
      apply List.sum_nonneg
      intro x hx
      rcases List.mem_map.mp hx with ⟨e0, _, rfl⟩
      exact hsrc e0 k
    · rw [List.getD_eq_default _ _ (by simpa using not_lt.mp hk)]
  · have h1 : (scatterAddRows rowIdx src N d).getD i [] = [] := by
      unfold scatterAddRows
      exact List.getD_eq_default _ _ (by simpa using not_lt.mp hi)
    rw [h1]
    simp

/-- C6: the scatter SpMM path (`spmm_scatter`: gather the dense rows at
`col`, scale by the edge values, scatter-add into the output at `row`) and
the direct sparse path (`spmm_adj`: materialize the COO sparse matrix with
duplicate coordinates summed and matrix-multiply) compute the same function
over exact rational arithmetic, namely
`out[i][f] = Σ over edges e with row[e] = i of values[e] * x[col[e]][f]`. -/
theorem C6_spmm_scatter_eq_spmm_adj (row col : List ℕ) (values : List ℚ)
    (x : List (List ℚ)) (F : ℕ) (hne : x ≠ [])
    (hrl : row.length = values.length) (hcl : col.length = values.length)
    (hr : ∀ a ∈ row, a < x.length) (hc : ∀ a ∈ col, a < x.length)
    (hrect : ∀ r ∈ x, r.length = F) :
    spmm_scatter row col values x = spmm_adj row col values x ∧
    (∀ i, i < x.length → ∀ f, f < F →
      getE (spmm_adj row col values x) i f =
        ((List.range values.length).map fun e =>
          if row.getD e 0 = i
          then values.getD e 0 * getE x (col.getD e 0) f
          else 0).sum) := by
  have hF : (x.headD []).length = F := by
    cases x with
    | nil => exact absurd rfl hne
    | cons r xs => exact hrect r (by simp)
  have hadj : ∀ i, i < x.length → ∀ f, f < F →
      getE (spmm_adj row col values x) i f =
        ((List.range values.length).map fun e =>
          if row.getD e 0 = i
          then values.getD e 0 * getE x (col.getD e 0) f
          else 0).sum := by
    intro i hi f hf
    rw [spmm_adj_getE row col values x i f hi (by rw [hF]; exact hf)]
    have hcol : ∀ t ∈ ((List.range values.length).map fun e =>
        (row.getD e 0, col.getD e 0, values.getD e 0)), t.2.1 < x.length := by
      intro t ht
      rcases List.mem_map.mp ht with ⟨e, he, rfl⟩
      have hev : e < values.length := List.mem_range.mp he
      have hec : e < col.length := by omega
      show col.getD e 0 < x.length
      rw [List.getD_eq_getElem _ _ hec]
      exact hc _ (List.getElem_mem hec)
    have hmm := edgeListSum_eq_matmul ((List.range values.length).map fun e =>
        (row.getD e 0, col.getD e 0, values.getD e 0)) i x.length
      (fun j => (x.getD j []).getD f 0) hcol
    have h1 : edgeListSum ((List.range values.length).map fun e =>
        (row.getD e 0, col.getD e 0, values.getD e 0)) i
          (fun j => (x.getD j []).getD f 0) =
        ((List.range values.length).map fun e =>
          if row.getD e 0 = i
          then values.getD e 0 * getE x (col.getD e 0) f
          else 0).sum := by
      unfold edgeListSum
      rw [List.map_map]
      rfl
    have h2 : ((List.range x.length).map fun j =>
        coeffAt row col values i j * (x.getD j []).getD f 0).sum =
        ((List.range x.length).map fun j =>
          coeffList ((List.range values.length).map fun e =>
            (row.getD e 0, col.getD e 0, values.getD e 0)) i j *
            (x.getD j []).getD f 0).sum := by
      congr 1
      apply List.map_congr_left
      intro j _
      rw [coeffAt_eq_coeffList]
    rw [h2, ← hmm, h1]
  have hscatter_rows : ∀ r ∈ spmm_scatter row col values x, r.length = F := by
    intro r hr2
    unfold spmm_scatter at hr2
    refine scatterFold_rowlen _ (zerosLike x) F ?_ ?_ r hr2
    · intro s hs
      rcases List.mem_map.mp hs with ⟨rr, hrr, rfl⟩
      simp [hrect rr hrr]
    · intro t ht
      obtain ⟨a, g⟩ := t
      have hg := (List.of_mem_zip ht).2
      rcases List.mem_map.mp hg with ⟨e, he, rfl⟩
      show (vscale _ _).length = F
      unfold vscale
      rw [List.length_map]
      have hev : e < values.length := List.mem_range.mp he
      have hec : e < col.length := by omega
      have hcx : col.getD e 0 < x.length := by
        rw [List.getD_eq_getElem _ _ hec]
        exact hc _ (List.getElem_mem hec)
      rw [List.getD_eq_getElem _ _ hcx]
      exact hrect _ (List.getElem_mem hcx)
  have hadj_rows : ∀ r ∈ spmm_adj row col values x, r.length = F := by
    intro r hr2
    unfold spmm_adj at hr2
    rcases List.mem_map.mp hr2 with ⟨i, hi, rfl⟩
    rw [List.length_map, List.length_range]
    exact hF
  have hslen : (spmm_scatter row col values x).length = x.length := by
    unfold spmm_scatter
    rw [scatterFold_length]
    simp [zerosLike]
  have hlen : (spmm_scatter row col values x).length =
      (spmm_adj row col values x).length := by
    rw [hslen]
    unfold spmm_adj
    simp
  refine ⟨?_, hadj⟩
  apply ext_getE _ _ F hlen hscatter_rows hadj_rows
  intro i hi f hf
  have hi' : i < x.length := by rw [← hslen]; exact hi
  rw [spmm_scatter_getE row col values x hrl hr i f, hadj i hi' f hf]

/-- C6 witness: the path-equivalence theorem applied to the 2-node graph with
edges (0,1), (1,0), (1,1) of weights 2, 3, 5 and a concrete 2×2 dense
operand. -/
theorem C6_witness :
    spmm_scatter [0, 1, 1] [1, 0, 1] [2, 3, 5] [[1, 2], [4, 8]] =
      spmm_adj [0, 1, 1] [1, 0, 1] [2, 3, 5] [[1, 2], [4, 8]] ∧
    (∀ i, i < ([[(1 : ℚ), 2], [4, 8]] : List (List ℚ)).length → ∀ f, f < 2 →
      getE (spmm_adj [0, 1, 1] [1, 0, 1] [2, 3, 5] [[1, 2], [4, 8]]) i f =
        ((List.range ([(2 : ℚ), 3, 5] : List ℚ).length).map fun e =>
          if ([0, 1, 1] : List ℕ).getD e 0 = i
          then ([(2 : ℚ), 3, 5] : List ℚ).getD e 0 *
            getE [[1, 2], [4, 8]] (([1, 0, 1] : List ℕ).getD e 0) f
          else 0).sum) :=
  C6_spmm_scatter_eq_spmm_adj [0, 1, 1] [1, 0, 1] [2, 3, 5] [[1, 2], [4, 8]] 2
    (by decide) (by decide) (by decide) (by decide) (by decide) (by decide)

/-- C1: the claim states that `coalesce` on a weighted edge list returns
sorted unique pairs whose weights are the per-pair sums of the input weights
(the spec's own test: edges (0,1,w=2) and (0,1,w=3) coalesce to (0,1,w=5)),
with `None` passed through when no weights are given.  The code does neither:
on the spec's test input it feeds the sorted column array as the scatter
index, which is out of range of the deduplicated output (a runtime error,
modelled as `none`), and on a duplicate-free input whose sort is not the
identity it returns the weight array unpermuted, so the pair (0,1) — whose
input weight is 20 — comes out carrying weight 10. -/
theorem C1_coalesce_value_bug :
    coalesce [0, 0] [1, 1] (some [2, 3]) = none ∧
    coalesce [1, 0] [0, 1] (some [10, 20]) =
      some ([0, 1], [1, 0], some [10, 20]) := by
  constructor
  · rfl
  · rfl

/-- C3: the claim states that `csc_from_csr(indptr, indices, data)` returns
the same triple as `csr2csc`, in particular a column indptr counting entries
with column < j.  The code stores the ORIGINAL row `indptr` under the
`"col_indptr"` cache key and returns it: on the 2×2 matrix with the single
entry (0,1) the code returns indptr `[0,1,1]` while `csr2csc` (and the claim)
give `[0,0,1]`. -/
theorem C3_csc_from_csr_bug :
    csc_from_csr [0, 1, 1] [1] [(5 : ℚ)] = ([0, 1, 1], [0], [5]) ∧
    csr2csc [0, 1, 1] [1] [(5 : ℚ)] = ([0, 0, 1], [0], [5]) := by
  constructor
  · rfl
  · rfl

/-- C2 counterexample: the claim states that the ordered branch of the
COO-to-CSR converter returns an indptr of length `num_nodes + 1`.  With
`row = [0]`, `col = [0]` and `num_nodes = 3` the returned indptr is
`[0, 1]`, of length 2, not 4: `sorted_coo2csr` never reads `num_nodes` and
sizes the indptr from `max(row)` instead. -/
theorem C2_indptr_length_counterexample :
    ((coo2csrOrdered [0] [0] [(5 : ℚ)] 3).1).length ≠ 3 + 1 := by
  decide

/-- C2 (amended): for a nonempty edge list with non-decreasing rows, the
ordered branch returns an indptr of length `max(row) + 2` (equal to
`num_nodes + 1` only when `num_nodes = max(row) + 1`) with `indptr[0] = 0`,
`indptr[max(row)+1] = E`, and `indptr[i]` equal to the count of entries with
row < i; the `indices` and `data` arrays are returned unchanged. -/
theorem C2_sorted_coo2csr_indptr (row col : List ℕ) (data : List ℚ)
    (numNodes : ℕ) (hne : row ≠ []) (_hsort : List.Pairwise (· ≤ ·) row) :
    ((coo2csrOrdered row col data numNodes).1).length = row.foldr max 0 + 2 ∧
    ((coo2csrOrdered row col data numNodes).1).getD 0 0 = 0 ∧
    ((coo2csrOrdered row col data numNodes).1).getD (row.foldr max 0 + 1) 0 =
      row.length ∧
    (∀ i, i < row.foldr max 0 + 2 →
      ((coo2csrOrdered row col data numNodes).1).getD i 0 =
        row.countP (fun r => decide (r < i))) ∧
    (coo2csrOrdered row col data numNodes).2.1 = col ∧
    (coo2csrOrdered row col data numNodes).2.2 = data := by
  have hbc : bincount row = (List.range (row.foldr max 0 + 1)).map
      fun i => row.count i := by
    unfold bincount
    match row, hne with
    | a :: t, _ => rfl
  have hlen : (cumsum (bincount row)).length = row.foldr max 0 + 1 := by
    simp [cumsum, hbc]
  have hget : ∀ j, j < row.foldr max 0 + 1 →
      (cumsum (bincount row)).getD j 0 =
        row.countP (fun r => decide (r < j + 1)) := by
    intro j hj
    unfold cumsum
    rw [rangeMap_getD _ _ _ _ (by simpa [hbc] using hj)]
    rw [hbc, ← List.map_take, List.take_range]
    have hmin : min (j + 1) (row.foldr max 0 + 1) = j + 1 := by omega
    rw [hmin, sum_range_count]
  refine ⟨?_, ?_, ?_, ?_, rfl, rfl⟩
  · simp [coo2csrOrdered, sorted_coo2csr, hlen]
  · simp [coo2csrOrdered, sorted_coo2csr]
  · show (0 :: cumsum (bincount row)).getD (row.foldr max 0 + 1) 0 = _
    rw [List.getD_cons_succ, hget _ (by omega)]
    rw [List.countP_eq_length.mpr]
    intro a ha
    have := le_foldr_max row a ha
    simpa using by omega
  · intro i hi
    show (0 :: cumsum (bincount row)).getD i 0 = _
    cases i with
    | zero =>
      simp [List.countP_eq_zero]
    | succ j =>
      rw [List.getD_cons_succ, hget _ (by omega)]

/-- C2 witness: the amended statement applied to the concrete non-decreasing
edge list row = [0,0,1], col = [7,8], data = [1,2], num_nodes = 2. -/
theorem C2_witness :
    ((coo2csrOrdered [0, 0, 1] [7, 8] [(1 : ℚ), 2] 2).1).length =
      [0, 0, 1].foldr max 0 + 2 ∧
    ((coo2csrOrdered [0, 0, 1] [7, 8] [(1 : ℚ), 2] 2).1).getD 0 0 = 0 ∧
    ((coo2csrOrdered [0, 0, 1] [7, 8] [(1 : ℚ), 2] 2).1).getD
      ([0, 0, 1].foldr max 0 + 1) 0 = [0, 0, 1].length ∧
    (∀ i, i < [0, 0, 1].foldr max 0 + 2 →
      ((coo2csrOrdered [0, 0, 1] [7, 8] [(1 : ℚ), 2] 2).1).getD i 0 =
        [0, 0, 1].countP (fun r => decide (r < i))) ∧
    (coo2csrOrdered [0, 0, 1] [7, 8] [(1 : ℚ), 2] 2).2.1 = [7, 8] ∧
    (coo2csrOrdered [0, 0, 1] [7, 8] [(1 : ℚ), 2] 2).2.2 = [(1 : ℚ), 2] :=
  C2_sorted_coo2csr_indptr [0, 0, 1] [7, 8] [(1 : ℚ), 2] 2 (by decide)
    (by decide)

/-- C4 counterexample: the claim states that the unordered converter
reorders edges by a STABLE sort permutation of `row` — equal-row edges
keeping their original relative order.  The source obtains the permutation
from `torch.argsort` without `stable=True`, whose documentation explicitly
leaves the order of equivalent elements unguaranteed: for `row = [0, 0]` the
permutation `[1, 0]` is a valid return value (`isArgsortOf [0,0] [1,0]`)
although the stable permutation is `[0, 1]`, and under it the two equal-row
edges come out with their columns reversed (`[2, 1]` instead of the
original-order `[1, 2]`). -/
theorem C4_unstable_argsort_counterexample :
    isArgsortOf [0, 0] [1, 0] ∧
    stableArgsortSpec [0, 0] = [0, 1] ∧
    (_coo2csr [0, 0] [1, 2] (some [10, 20]) 1 [1, 0]).2.1 = [2, 1] ∧
    (_coo2csr [0, 0] [1, 2] (some [10, 20]) 1 [0, 1]).2.1 = [1, 2] := by
  refine ⟨by decide, by decide, by decide, by decide⟩

/-- C4 (amended): for every permutation `p` that `torch.argsort(row)` may
return (any `p` with `row∘p` non-decreasing — the tie order is unspecified
and NOT guaranteed stable), `_coo2csr` with `ordered=False` applies that same
`p` to both the `col` array and the `data` array, the permuted (col, data)
pairs are a permutation of the original aligned pairs, and `indptr` is built
by histogram and prefix sum: it has length `num_nodes + 1` and
`indptr[i] = count of entries with row < i`. -/
theorem C4_coo2csr_unordered (row col : List ℕ) (data : List ℚ)
    (numNodes : ℕ) (p : List ℕ) (hp : isArgsortOf row p)
    (hcl : col.length = row.length) (hdl : data.length = row.length) :
    (_coo2csr row col (some data) numNodes p).2.1 =
      (p.map fun i => col.getD i 0) ∧
    (_coo2csr row col (some data) numNodes p).2.2 =
      some (p.map fun i => data.getD i 0) ∧
    ((p.map fun i => col.getD i 0).zip (p.map fun i => data.getD i 0)).Perm
      (col.zip data) ∧
    ((_coo2csr row col (some data) numNodes p).1).length = numNodes + 1 ∧
    (∀ i, i ≤ numNodes →
      ((_coo2csr row col (some data) numNodes p).1).getD i 0 =
        row.countP (fun r => decide (r < i))) := by
  refine ⟨rfl, rfl, ?_, ?_, ?_⟩
  · have hzz : (p.map fun i => col.getD i 0).zip
        (p.map fun i => data.getD i 0) =
        p.map fun i => (col.getD i 0, data.getD i 0) := List.zip_map' _ _ _
    have hrhs : col.zip data =
        (List.range row.length).map fun i =>
          (col.getD i 0, data.getD i 0) := by
      conv_lhs => rw [show col = (List.range row.length).map
          (fun i => col.getD i 0) from by
            rw [← hcl]; exact getD_eq_range_map_nat col,
        show data = (List.range row.length).map
          (fun i => data.getD i 0) from by
            rw [← hdl]; exact getD_eq_range_map data]
      rw [List.zip_map']
    rw [hzz, hrhs]
    exact hp.1.map _
  · show (cumsum (histogram (p.map fun i => row.getD i 0) numNodes)).length = _
    simp [cumsum, histogram]
  · intro i hi
    show (cumsum (histogram (p.map fun i => row.getD i 0) numNodes)).getD i 0 = _
    rw [cumsum_hist_getD _ _ _ hi]
    have hsp : (p.map fun i => row.getD i 0).Perm row := by
      have h1 := hp.1.map fun i => row.getD i 0
      rwa [← getD_eq_range_map_nat row] at h1
    exact hsp.countP_eq _

/-- C4 witness: the amended statement applied to row = [1, 0],
col = [5, 6], data = [2, 3], num_nodes = 2 with the (unique) valid argsort
permutation [1, 0]. -/
theorem C4_witness :
    (_coo2csr [1, 0] [5, 6] (some [(2 : ℚ), 3]) 2 [1, 0]).2.1 =
      ([1, 0].map fun i => ([5, 6] : List ℕ).getD i 0) ∧
    (_coo2csr [1, 0] [5, 6] (some [(2 : ℚ), 3]) 2 [1, 0]).2.2 =
      some ([1, 0].map fun i => ([(2 : ℚ), 3] : List ℚ).getD i 0) ∧
    (([1, 0].map fun i => ([5, 6] : List ℕ).getD i 0).zip
      ([1, 0].map fun i => ([(2 : ℚ), 3] : List ℚ).getD i 0)).Perm
      (([5, 6] : List ℕ).zip ([(2 : ℚ), 3] : List ℚ)) ∧
    ((_coo2csr [1, 0] [5, 6] (some [(2 : ℚ), 3]) 2 [1, 0]).1).length = 2 + 1 ∧
    (∀ i, i ≤ 2 →
      ((_coo2csr [1, 0] [5, 6] (some [(2 : ℚ), 3]) 2 [1, 0]).1).getD i 0 =
        ([1, 0] : List ℕ).countP (fun r => decide (r < i))) :=
  C4_coo2csr_unordered [1, 0] [5, 6] [(2 : ℚ), 3] 2 [1, 0] (by decide)
    (by decide) (by decide)

/-- C5: converting a coordinate edge list to CSR with `_coo2csr` (under any
permutation `torch.argsort` may return) and back with `csr2coo` yields a
multiset of (row, col, weight) triples equal to the original multiset. -/
theorem C5_coo_csr_roundtrip (row col : List ℕ) (data : List ℚ)
    (numNodes : ℕ) (p : List ℕ) (hp : isArgsortOf row p)
    (hcl : col.length = row.length) (hdl : data.length = row.length)
    (hin : ∀ a ∈ row, a < numNodes) :
    ((coo_roundtrip row col data numNodes p).1.zip
      ((coo_roundtrip row col data numNodes p).2.1.zip
        (coo_roundtrip row col data numNodes p).2.2)).Perm
      (row.zip (col.zip data)) := by
  have hsp : (p.map fun i => row.getD i 0).Perm row := by
    have h1 := hp.1.map fun i => row.getD i 0
    rwa [← getD_eq_range_map_nat row] at h1
  have hin_s : ∀ a ∈ (p.map fun i => row.getD i 0), a < numNodes :=
    fun a ha => hin a (hsp.mem_iff.mp ha)
  have hip_len : ((_coo2csr row col (some data) numNodes p).1).length =
      numNodes + 1 := by
    show (cumsum (histogram (p.map fun i => row.getD i 0) numNodes)).length = _
    simp [cumsum, histogram]
  have hslice : ∀ i, i < numNodes →
      ((_coo2csr row col (some data) numNodes p).1).getD (i + 1) 0 -
        ((_coo2csr row col (some data) numNodes p).1).getD i 0 =
        (p.map fun i => row.getD i 0).count i := by
    intro i hi
    show (cumsum (histogram (p.map fun i => row.getD i 0) numNodes)).getD
        (i + 1) 0 - (cumsum _).getD i 0 = _
    rw [cumsum_hist_getD _ _ _ (by omega), cumsum_hist_getD _ _ _ (by omega),
      countP_lt_succ]
    omega
  have hrow_rec : (coo_roundtrip row col data numNodes p).1 =
      (p.map fun i => row.getD i 0) := by
    show ((List.range
        (((_coo2csr row col (some data) numNodes p).1).length - 1)).flatMap
      fun i => List.replicate
        (((_coo2csr row col (some data) numNodes p).1).getD (i + 1) 0 -
          ((_coo2csr row col (some data) numNodes p).1).getD i 0) i) = _
    rw [hip_len, Nat.add_sub_cancel]
    have hcongr : ∀ i ∈ List.range numNodes,
        List.replicate
          (((_coo2csr row col (some data) numNodes p).1).getD (i + 1) 0 -
            ((_coo2csr row col (some data) numNodes p).1).getD i 0) i =
        List.replicate ((p.map fun i => row.getD i 0).count i) i := by
      intro i hi
      rw [hslice i (List.mem_range.mp hi)]
    rw [List.flatMap_def, List.map_congr_left hcongr, ← List.flatMap_def]
    exact csr2coo_row_of_sorted _ numNodes hp.2 hin_s
  have hzip : (coo_roundtrip row col data numNodes p).1.zip
      ((coo_roundtrip row col data numNodes p).2.1.zip
        (coo_roundtrip row col data numNodes p).2.2) =
      p.map fun i => (row.getD i 0, (col.getD i 0, data.getD i 0)) := by
    rw [hrow_rec]
    show (p.map fun i => row.getD i 0).zip
      ((p.map fun i => col.getD i 0).zip
        (p.map fun i => data.getD i 0)) = _
    rw [List.zip_map', List.zip_map']
  have hrhs : row.zip (col.zip data) =
      (List.range row.length).map fun i =>
        (row.getD i 0, (col.getD i 0, data.getD i 0)) := by
    conv_lhs => rw [getD_eq_range_map_nat row,
      show col = (List.range row.length).map
        (fun i => col.getD i 0) from by
          rw [← hcl]; exact getD_eq_range_map_nat col,
      show data = (List.range row.length).map
        (fun i => data.getD i 0) from by
          rw [← hdl]; exact getD_eq_range_map data]
    rw [List.zip_map', List.zip_map']
  rw [hzip, hrhs]
  exact hp.1.map _

/-- C5 witness: the round-trip theorem applied to row = [1, 0, 1],
col = [0, 1, 1], data = [5, 7, 9], num_nodes = 2 with the valid argsort
permutation [1, 0, 2]. -/
theorem C5_witness :
    ((coo_roundtrip [1, 0, 1] [0, 1, 1] [(5 : ℚ), 7, 9] 2 [1, 0, 2]).1.zip
      ((coo_roundtrip [1, 0, 1] [0, 1, 1] [(5 : ℚ), 7, 9] 2 [1, 0, 2]).2.1.zip
        (coo_roundtrip [1, 0, 1] [0, 1, 1] [(5 : ℚ), 7, 9] 2
          [1, 0, 2]).2.2)).Perm
      (([1, 0, 1] : List ℕ).zip
        (([0, 1, 1] : List ℕ).zip ([(5 : ℚ), 7, 9] : List ℚ))) :=
  C5_coo_csr_roundtrip [1, 0, 1] [0, 1, 1] [(5 : ℚ), 7, 9] 2 [1, 0, 2]
    (by decide) (by decide) (by decide) (by decide)

/-- C8: symmetric normalization (`utils.py` lines 189-196) assigns edge `e`
the weight `isqrt(rowsum[col e]) * w e * isqrt(rowsum[row e])` where `rowsum`
is the scatter-summed degree and `isqrt` is the clamped inverse square root;
for two edges that are reverses of one another and carry equal weights the
results are equal (for an arbitrary per-node map `isqrt`, hence in particular
for the clamped `pow(-0.5)` of the source). -/
theorem C8_symmetric_normalization_symm (isqrt : ℚ → ℚ) (numNodes : ℕ)
    (row col : List ℕ) (w : List ℚ) (e1 e2 : ℕ)
    (h1 : e1 < w.length) (h2 : e2 < w.length)
    (hr : row.getD e1 0 = col.getD e2 0) (hc : col.getD e1 0 = row.getD e2 0)
    (hw : w.getD e1 0 = w.getD e2 0) :
    (symmetric_normalization isqrt numNodes row col w).getD e1 0 =
      (symmetric_normalization isqrt numNodes row col w).getD e2 0 := by
  unfold symmetric_normalization
  rw [rangeMap_getD _ _ _ _ h1, rangeMap_getD _ _ _ _ h2]
  rw [hr, hc, hw]
  ring

/-- C8 witness: the symmetry theorem applied to the undirected single edge
{0,1} with weight 3 on both orientations, with `isqrt` the identity. -/
theorem C8_witness :
    (symmetric_normalization (fun q => q) 2 [0, 1] [1, 0] [3, 3]).getD 0 0 =
      (symmetric_normalization (fun q => q) 2 [0, 1] [1, 0] [3, 3]).getD 1 0 :=
  C8_symmetric_normalization_symm (fun q => q) 2 [0, 1] [1, 0] [3, 3] 0 1
    (by decide) (by decide) (by decide) (by decide) (by decide)

theorem dampLoop_length (l : List ℚ) : (dampLoop l).length = l.length := by
  induction l using dampLoop.induct with
  | case1 l hle =>
    unfold dampLoop
    rw [if_pos hle]
  | case2 l hgt ih =>
    unfold dampLoop
    rw [if_neg hgt, ih, List.length_map]

theorem edge_softmax_length (expf : ℚ → ℚ) (g : SGraph) (vals : List ℚ) :
    (edge_softmax expf g vals).length = vals.length := by
  simp [edge_softmax, dampLoop_length]

/-- C7 counterexample: the claim asserts that BOTH edge-softmax routines
guard the per-source-node denominator with a small epsilon and replace any
resulting NaN by 0, so that the output never contains NaN or Inf.
`edge_softmax_` contains no guard at all: with the IEEE behavior of `exp`
(which underflows to exactly 0 for arguments below ≈ -745 — the stand-in
`fun x => if x < -745 then 0 else 1` reproduces that), a single edge valued
-800 produces a zero node sum and the routine returns the unguarded
`0/0 = NaN` (modelled `none`) to the caller. -/
theorem C7_edge_softmax_nan_counterexample :
    edge_softmax_ (fun x => if x < -745 then 0 else 1) [0] [0]
      [(-800 : ℚ)] 1 = [none] := by
  simp [edge_softmax_, spmm_scatter, zerosLike, scatterStep, vadd, vscale,
    List.range_succ]
  norm_num

/-- C7 (amended): `mul_edge_softmax_` guards its denominator with the `1e-8`
epsilon and substitutes 0 for NaN, so for ANY nonnegative exponential values —
everything a floating-point `exp` can produce, including the zeros it
underflows to — its output never contains NaN or Inf; `edge_softmax_` applies
no epsilon and no NaN substitution, and its output is NaN/Inf-free only under
a strictly positive exponential (the real `exp`), where every edge's
denominator contains that edge's own exponential and is therefore positive.
The mul conjunct needs only `0 ≤ expf x`; strict positivity appears solely as
the premise of the `edge_softmax_` conjunct. -/
theorem C7_softmax_no_nan (expf : ℚ → ℚ) (hnn : ∀ x, 0 ≤ expf x)
    (row col : List ℕ) (values : List ℚ) (values2 : List (List ℚ))
    (numNodes : ℕ)
    (hrl : row.length = values.length) (hcl : col.length = values.length)
    (hr : ∀ a ∈ row, a < numNodes) (hc : ∀ a ∈ col, a < numNodes) :
    (∀ r ∈ mul_edge_softmax_ expf row values2 numNodes, ∀ o ∈ r,
      o.isSome) ∧
    ((∀ x, 0 < expf x) →
      ∀ o ∈ edge_softmax_ expf row col values numNodes, o.isSome) := by
  constructor
  · intro r hr2 o ho
    simp only [mul_edge_softmax_] at hr2
    rcases List.mem_map.mp hr2 with ⟨e, _, rfl⟩
    rcases List.mem_map.mp ho with ⟨k, _, rfl⟩
    have hge : (0 : ℚ) ≤ ((scatterAddRows row
        (values2.map fun r => r.map expf) numNodes
          ((values2.headD []).length)).getD (row.getD e 0) []).getD k 0 :=
      scatterAddRows_nonneg _ _ _ _
        (fun e0 k0 => mapmap_getD_nonneg expf hnn values2 e0 k0) _ _
    have hden : (0 : ℚ) < ((scatterAddRows row
        (values2.map fun r => r.map expf) numNodes
          ((values2.headD []).length)).getD (row.getD e 0) []).getD k 0 +
        1 / 100000000 :=
      add_pos_of_nonneg_of_pos hge (by norm_num)
    split
    · rename_i hcond
      exact absurd hcond (ne_of_gt hden)
    · rfl
  · intro hpos o ho
    simp only [edge_softmax_] at ho
    rcases List.mem_map.mp ho with ⟨e, hein, rfl⟩
    have he : e < values.length := by
      have := List.mem_range.mp hein
      simpa using this
    have hchar := spmm_scatter_getE row col (values.map expf)
      (List.replicate numNodes [(1 : ℚ)])
      (by rw [hrl, List.length_map])
      (fun a ha => by rw [List.length_replicate]; exact hr a ha)
      (row.getD e 0) 0
    have hnonneg : ∀ x ∈ ((List.range (values.map expf).length).map fun e2 =>
        if row.getD e2 0 = row.getD e 0
        then (values.map expf).getD e2 0 *
          getE (List.replicate numNodes [(1 : ℚ)]) (col.getD e2 0) 0
        else 0), 0 ≤ x := by
      intro x hx
      rcases List.mem_map.mp hx with ⟨e2, _, rfl⟩
      by_cases h : row.getD e2 0 = row.getD e 0
      · rw [if_pos h]
        apply mul_nonneg
        · by_cases h2 : e2 < values.length
          · rw [map_getD_lt _ _ _ h2]
            exact le_of_lt (hpos _)
          · rw [List.getD_eq_default _ _ (by simpa using not_lt.mp h2)]
        · rw [ones_getE]
          by_cases h3 : col.getD e2 0 < numNodes
          · rw [if_pos h3]
            norm_num
          · rw [if_neg h3]
      · rw [if_neg h]
    have hterm_mem : (if row.getD e 0 = row.getD e 0
        then (values.map expf).getD e 0 *
          getE (List.replicate numNodes [(1 : ℚ)]) (col.getD e 0) 0
        else 0) ∈ ((List.range (values.map expf).length).map fun e2 =>
          if row.getD e2 0 = row.getD e 0
          then (values.map expf).getD e2 0 *
            getE (List.replicate numNodes [(1 : ℚ)]) (col.getD e2 0) 0
          else 0) :=
      List.mem_map_of_mem _ (List.mem_range.mpr (by simpa using he))
    have hterm_pos : (0 : ℚ) < (if row.getD e 0 = row.getD e 0
        then (values.map expf).getD e 0 *
          getE (List.replicate numNodes [(1 : ℚ)]) (col.getD e 0) 0
        else 0) := by
      rw [if_pos rfl, map_getD_lt _ _ _ he, ones_getE, if_pos ?_, mul_one]
      · exact hpos _
      · have he2 : e < col.length := by omega
        rw [List.getD_eq_getElem _ _ he2]
        exact hc _ (List.getElem_mem he2)
    have hden : (0 : ℚ) < getE (spmm_scatter row col (values.map expf)
        (List.replicate numNodes [(1 : ℚ)])) (row.getD e 0) 0 := by
      rw [hchar]
      exact lt_of_lt_of_le hterm_pos (List.single_le_sum hnonneg _ hterm_mem)
    split
    · rename_i hcond
      exact absurd hcond (ne_of_gt hden)
    · rfl

/-- C7 witness: the amended statement applied to the single self-loop graph
with edge value 0.  The mul conjunct is instantiated with the constant-0
exponential — the fully underflowed case the epsilon guard exists for —
and the `edge_softmax_` conjunct with the constant-1 exponential. -/
theorem C7_witness :
    ((∀ r ∈ mul_edge_softmax_ (fun _ => 0) [0] [[(0 : ℚ)]] 1, ∀ o ∈ r,
      o.isSome) ∧
    ((∀ x : ℚ, (0 : ℚ) < (fun _ => (0 : ℚ)) x) →
      ∀ o ∈ edge_softmax_ (fun _ => 0) [0] [0] [(0 : ℚ)] 1, o.isSome)) ∧
    ((∀ r ∈ mul_edge_softmax_ (fun _ => 1) [0] [[(0 : ℚ)]] 1, ∀ o ∈ r,
      o.isSome) ∧
    ((∀ x : ℚ, (0 : ℚ) < (fun _ => (1 : ℚ)) x) →
      ∀ o ∈ edge_softmax_ (fun _ => 1) [0] [0] [(0 : ℚ)] 1, o.isSome)) :=
  ⟨C7_softmax_no_nan (fun _ => 0) (fun x => le_refl 0) [0] [0] [(0 : ℚ)]
    [[(0 : ℚ)]] 1 (by decide) (by decide) (by decide) (by decide),
   C7_softmax_no_nan (fun _ => 1) (fun x => by norm_num) [0] [0] [(0 : ℚ)]
    [[(0 : ℚ)]] 1 (by decide) (by decide) (by decide) (by decide)⟩

/-- C9 counterexample: the claim states that `mul_edge_softmax` returns a
result of the same shape [E, d] as its input.  For the 2-edge, 1-column
input `[[0], [0]]` (shape [2, 1]) the output is the `torch.stack` of one
per-column result — shape [1, 2]: the returned list has length 1 (= d), not
2 (= E), matching the source's own docstring "shape: [d, E]". -/
theorem C9_shape_counterexample :
    (mul_edge_softmax (fun _ => 1) ⟨[0, 1], [0, 1], 2⟩
      [[(0 : ℚ)], [0]]).length = 1 ∧
    ([[(0 : ℚ)], [0]] : List (List ℚ)).length = 2 := by
  constructor
  · simp [mul_edge_softmax]
  · rfl

/-- C9 (amended): `mul_edge_softmax` returns the stack of per-column results
in shape [d, E] — the transpose of the claimed [E, d]: the output has `d`
rows (one per input column), each of length `E`; row `k` is the
single-dimension `edge_softmax` applied to input column `k`; and columns do
not interact — two inputs agreeing on column `k` produce the same output row
`k`. -/
theorem C9_mul_edge_softmax (expf : ℚ → ℚ) (g : SGraph)
    (ev ev' : List (List ℚ)) (d k : ℕ) (hk : k < d)
    (hne : ev ≠ []) (hrect : ∀ r ∈ ev, r.length = d)
    (hne' : ev' ≠ []) (hrect' : ∀ r ∈ ev', r.length = d)
    (hlen : ev'.length = ev.length)
    (hagree : ∀ e, e < ev.length →
      (ev.getD e []).getD k 0 = (ev'.getD e []).getD k 0) :
    (mul_edge_softmax expf g ev).length = d ∧
    (∀ j, j < d →
      ((mul_edge_softmax expf g ev).getD j []).length = ev.length) ∧
    (mul_edge_softmax expf g ev).getD k [] =
      edge_softmax expf g (ev.map fun r => r.getD k 0) ∧
    (mul_edge_softmax expf g ev).getD k [] =
      (mul_edge_softmax expf g ev').getD k [] := by
  have hd : (ev.headD []).length = d := by
    cases ev with
    | nil => exact absurd rfl hne
    | cons r t => exact hrect r (by simp)
  have hd' : (ev'.headD []).length = d := by
    cases ev' with
    | nil => exact absurd rfl hne'
    | cons r t => exact hrect' r (by simp)
  refine ⟨?_, ?_, ?_, ?_⟩
  · show ((List.range (ev.headD []).length).map fun i =>
      edge_softmax expf g (ev.map fun r => r.getD i 0)).length = d
    rw [List.length_map, List.length_range, hd]
  · intro j hj
    show (((List.range (ev.headD []).length).map fun i =>
      edge_softmax expf g (ev.map fun r => r.getD i 0)).getD j []).length = _
    rw [rangeMap_getD _ _ _ _ (by rw [hd]; exact hj)]
    rw [edge_softmax_length, List.length_map]
  · show ((List.range (ev.headD []).length).map fun i =>
      edge_softmax expf g (ev.map fun r => r.getD i 0)).getD k [] = _
    rw [rangeMap_getD _ _ _ _ (by rw [hd]; exact hk)]
  · have hcols : (ev.map fun r => r.getD k 0) =
        (ev'.map fun r => r.getD k 0) := by
      apply List.ext_getElem (by rw [List.length_map, List.length_map, hlen])
      intro e h1 h2
      rw [List.getElem_map, List.getElem_map]
      have hag := hagree e (by simpa using h1)
      rw [List.getD_eq_getElem ev _ (by simpa using h1),
        List.getD_eq_getElem ev' _ (by rw [hlen]; simpa using h1)] at hag
      exact hag
    show ((List.range (ev.headD []).length).map fun i =>
        edge_softmax expf g (ev.map fun r => r.getD i 0)).getD k [] =
      ((List.range (ev'.headD []).length).map fun i =>
        edge_softmax expf g (ev'.map fun r => r.getD i 0)).getD k []
    rw [rangeMap_getD _ _ _ _ (by rw [hd]; exact hk),
      rangeMap_getD _ _ _ _ (by rw [hd']; exact hk), hcols]

/-- C9 witness: the amended statement applied to the single-self-loop graph,
single-edge single-column input [[0]], with `expf` constant 1. -/
theorem C9_witness :
    (mul_edge_softmax (fun _ => 1) ⟨[0], [0], 1⟩ [[(0 : ℚ)]]).length = 1 ∧
    (∀ j, j < 1 →
      ((mul_edge_softmax (fun _ => 1) ⟨[0], [0], 1⟩
        [[(0 : ℚ)]]).getD j []).length = ([[(0 : ℚ)]] : List (List ℚ)).length) ∧
    (mul_edge_softmax (fun _ => 1) ⟨[0], [0], 1⟩ [[(0 : ℚ)]]).getD 0 [] =
      edge_softmax (fun _ => 1) ⟨[0], [0], 1⟩
        (([[(0 : ℚ)]] : List (List ℚ)).map fun r => r.getD 0 0) ∧
    (mul_edge_softmax (fun _ => 1) ⟨[0], [0], 1⟩ [[(0 : ℚ)]]).getD 0 [] =
      (mul_edge_softmax (fun _ => 1) ⟨[0], [0], 1⟩ [[(0 : ℚ)]]).getD 0 [] :=
  C9_mul_edge_softmax (fun _ => 1) ⟨[0], [0], 1⟩ [[(0 : ℚ)]] [[(0 : ℚ)]] 1 0
    (by decide) (by decide) (by decide) (by decide) (by decide) (by decide)
    (by decide)

/-- C10: `add_remaining_self_loops` (`utils.py` lines 151-176) on an edge
list whose node ids are below `N` and which has at most one self-loop per
node returns an edge set in which (a) every node `0..N-1` carries exactly one
self-loop, (b) the non-self-loop edges — as aligned `((row, col), weight)`
triples — are exactly the input's non-self-loop triples, in their original
order and with their original weights, and (c) the self-loop of node `i`
carries the weight of the input's self-loop at `i` when one exists and
`fill_value` otherwise. -/
theorem C10_add_remaining_self_loops (row col : List ℕ) (w : List ℚ)
    (fill : ℚ) (numNodes : ℕ)
    (hcl : col.length = row.length) (hwl : w.length = row.length)
    (hrN : ∀ a ∈ row, a < numNodes)
    (hone : ∀ i : ℕ, i < numNodes → (row.zip col).count (i, i) ≤ 1) :
    (∀ i, i < numNodes →
      (((add_remaining_self_loops row col w fill numNodes).1.1).zip
        ((add_remaining_self_loops row col w fill numNodes).1.2)).count
          (i, i) = 1) ∧
    ((((add_remaining_self_loops row col w fill numNodes).1.1).zip
        ((add_remaining_self_loops row col w fill numNodes).1.2)).zip
      ((add_remaining_self_loops row col w fill numNodes).2)).filter
        (fun t => t.1.1 != t.1.2) =
      ((row.zip col).zip w).filter (fun t => t.1.1 != t.1.2) ∧
    (∀ i, i < numNodes →
      ((((add_remaining_self_loops row col w fill numNodes).1.1).zip
          ((add_remaining_self_loops row col w fill numNodes).1.2)).zip
        ((add_remaining_self_loops row col w fill numNodes).2)).filter
          (fun t => t.1.1 == i && t.1.2 == i) =
        [((i, i),
          ((((row.zip col).zip w).find?
            (fun t => t.1.1 == i && t.1.2 == i)).map Prod.snd).getD fill)]) := by
  have hzclen : (row.zip col).length = row.length := by
    rw [List.length_zip, hcl]
    omega
  have hpwlen : ((row.zip col).zip w).length = row.length := by
    rw [List.length_zip, hzclen, hwl]
    omega
  have hfst : ((row.zip col).zip w).map Prod.fst = row.zip col :=
    List.map_fst_zip _ _ (by omega)
  have hrN' : ∀ t ∈ (row.zip col).zip w, t.1.1 < numNodes := by
    intro t ht
    obtain ⟨⟨a, b⟩, c⟩ := t
    have h1 : (a, b) ∈ row.zip col := by
      rw [← hfst]
      exact List.mem_map_of_mem Prod.fst ht
    exact hrN a (List.of_mem_zip h1).1
  simp only [add_remaining_self_loops]
  set pw := (row.zip col).zip w with hpwdef
  set K := pw.filter (fun t => t.1.1 != t.1.2) with hKdef
  set L := setAll
    ((pw.filter fun t => t.1.1 == t.1.2).map fun t => (t.1.1, t.2))
    (List.replicate numNodes fill) with hLdef
  have hLlen : L.length = numNodes := by
    rw [hLdef, setAll_length, List.length_replicate]
  have hself_count : ∀ i : ℕ, i < numNodes →
      ((((pw.filter fun t => t.1.1 == t.1.2).map fun t =>
        (t.1.1, t.2)).map Prod.fst).count i) ≤ 1 := by
    intro i hi
    rw [List.map_map, List.count_eq_countP, List.countP_map,
      List.countP_filter]
    have hbound := hone i hi
    rw [← hfst, List.count_eq_countP, List.countP_map] at hbound
    refine le_trans (le_of_eq (List.countP_congr ?_)) hbound
    intro t _
    obtain ⟨⟨a, b⟩, c⟩ := t
    simp only [Function.comp, Bool.and_eq_true, beq_iff_eq, Prod.mk.injEq]
    constructor
    · rintro ⟨h1, h2⟩
      omega
    · rintro ⟨h1, h2⟩
      omega
  have h12 : ((K.map fun t => t.1.1) ++ List.range numNodes).zip
      ((K.map fun t => t.1.2) ++ List.range numNodes) =
      K.map (fun t => (t.1.1, t.1.2)) ++
        (List.range numNodes).map (fun j => (j, j)) := by
    rw [List.zip_append (by rw [List.length_map, List.length_map])]
    rw [List.zip_map', zip_self]
  have hsecond : ((List.range numNodes).map fun j => (j, j)).zip L =
      (List.range numNodes).map fun j => ((j, j), L.getD j 0) := by
    have hLr := getD_eq_range_map L
    rw [hLlen] at hLr
    conv_lhs => rw [hLr]
    rw [List.zip_map']
  have htrip : ((((K.map fun t => t.1.1) ++ List.range numNodes).zip
      ((K.map fun t => t.1.2) ++ List.range numNodes)).zip
        ((K.map fun t => t.2) ++ L)) =
      K ++ (List.range numNodes).map fun j => ((j, j), L.getD j 0) := by
    rw [h12, List.zip_append (by rw [List.length_map, List.length_map]),
      List.zip_map', hsecond]
    have hid : (fun t : (ℕ × ℕ) × ℚ => ((t.1.1, t.1.2), t.2)) = id :=
      funext fun t => rfl
    rw [hid, List.map_id]
  refine ⟨?_, ?_, ?_⟩
  · intro i hi
    rw [h12, List.count_append]
    have hz : (K.map fun t => (t.1.1, t.1.2)).count (i, i) = 0 := by
      rw [List.count_eq_zero]
      intro hmem
      rcases List.mem_map.mp hmem with ⟨t, htK, hteq⟩
      have hflt := (List.mem_filter.mp htK).2
      have h11 : t.1.1 = i := congrArg Prod.fst hteq
      have h22 : t.1.2 = i := congrArg Prod.snd hteq
      rw [h11, h22] at hflt
      simp at hflt
    have ho : ((List.range numNodes).map fun j => (j, j)).count (i, i) = 1 := by
      rw [List.count_eq_countP, List.countP_eq_length_filter,
        filter_map_range_single numNodes i hi (fun j => (j, j))
          (fun x => x == (i, i)) (fun j hj => by simp)]
      rfl
    rw [hz, ho]
  · rw [htrip, List.filter_append]
    have h1 : K.filter (fun t => t.1.1 != t.1.2) = K :=
      List.filter_eq_self.mpr fun t ht => (List.mem_filter.mp ht).2
    have h2 : ((List.range numNodes).map fun j =>
        ((j, j), L.getD j 0)).filter (fun t => t.1.1 != t.1.2) = [] := by
      rw [List.filter_eq_nil_iff]
      intro t ht
      rcases List.mem_map.mp ht with ⟨j, _, rfl⟩
      simp
    rw [h1, h2, List.append_nil]
  · intro i hi
    rw [htrip, List.filter_append]
    have h1 : K.filter (fun t => t.1.1 == i && t.1.2 == i) = [] := by
      rw [List.filter_eq_nil_iff]
      intro t ht
      have hflt := (List.mem_filter.mp ht).2
      intro hcond
      obtain ⟨⟨a, b⟩, c⟩ := t
      simp only [Bool.and_eq_true, beq_iff_eq] at hcond
      simp only [bne_iff_ne, ne_eq] at hflt
      omega
    have h2 : ((List.range numNodes).map fun j =>
        ((j, j), L.getD j 0)).filter (fun t => t.1.1 == i && t.1.2 == i) =
        [((i, i), L.getD i 0)] := by
      apply filter_map_range_single numNodes i hi
      intro j hj
      simp
    rw [h1, h2, List.nil_append]
    have hw : L.getD i 0 =
        ((pw.find? fun t => t.1.1 == i && t.1.2 == i).map Prod.snd).getD
          fill := by
      rw [hLdef, setAll_unique _ _ _ (hself_count i hi) ?_]
      · rw [replicate_getD_fill _ _ _ hi]
        congr 1
        rw [List.find?_map, Option.map_map]
        have hcomp1 : ((fun t : ℕ × ℚ => t.1 == i) ∘
            fun t : (ℕ × ℕ) × ℚ => (t.1.1, t.2)) =
            fun t : (ℕ × ℕ) × ℚ => t.1.1 == i := funext fun t => rfl
        have hcomp2 : (Prod.snd ∘ fun t : (ℕ × ℕ) × ℚ => (t.1.1, t.2)) =
            (Prod.snd : (ℕ × ℕ) × ℚ → ℚ) := funext fun t => rfl
        rw [hcomp1, hcomp2, find?_filter]
        congr 1
        apply find?_congr
        intro t _
        obtain ⟨⟨a, b⟩, c⟩ := t
        show ((a == b) && (a == i)) = ((a == i) && (b == i))
        rw [Bool.eq_iff_iff]
        simp only [Bool.and_eq_true, beq_iff_eq]
        constructor
        · rintro ⟨h1, h2⟩
          omega
        · rintro ⟨h1, h2⟩
          omega
      · intro t ht
        rcases List.mem_map.mp ht with ⟨s, hsmem, rfl⟩
        rw [List.length_replicate]
        exact hrN' s (List.mem_filter.mp hsmem).1
    rw [hw]

/-- C10 witness: the self-loop theorem applied to row = [0, 1], col = [1, 1],
w = [4, 7], fill = 1, num_nodes = 2 (one non-self edge (0,1) and one
pre-existing self-loop (1,1) of weight 7). -/
theorem C10_witness :
    (∀ i : ℕ, i < 2 →
      (((add_remaining_self_loops [0, 1] [1, 1] [(4 : ℚ), 7] 1 2).1.1).zip
        ((add_remaining_self_loops [0, 1] [1, 1] [(4 : ℚ), 7] 1 2).1.2)).count
          (i, i) = 1) ∧
    ((((add_remaining_self_loops [0, 1] [1, 1] [(4 : ℚ), 7] 1 2).1.1).zip
        ((add_remaining_self_loops [0, 1] [1, 1] [(4 : ℚ), 7] 1 2).1.2)).zip
      ((add_remaining_self_loops [0, 1] [1, 1] [(4 : ℚ), 7] 1 2).2)).filter
        (fun t => t.1.1 != t.1.2) =
      ((([0, 1] : List ℕ).zip ([1, 1] : List ℕ)).zip
        ([(4 : ℚ), 7] : List ℚ)).filter (fun t => t.1.1 != t.1.2) ∧
    (∀ i, i < 2 →
      ((((add_remaining_self_loops [0, 1] [1, 1] [(4 : ℚ), 7] 1 2).1.1).zip
          ((add_remaining_self_loops [0, 1] [1, 1] [(4 : ℚ), 7] 1 2).1.2)).zip
        ((add_remaining_self_loops [0, 1] [1, 1] [(4 : ℚ), 7] 1 2).2)).filter
          (fun t => t.1.1 == i && t.1.2 == i) =
        [((i, i),
          ((((([0, 1] : List ℕ).zip ([1, 1] : List ℕ)).zip
              ([(4 : ℚ), 7] : List ℚ)).find?
            (fun t => t.1.1 == i && t.1.2 == i)).map Prod.snd).getD 1)]) :=
  C10_add_remaining_self_loops [0, 1] [1, 1] [(4 : ℚ), 7] 1 2 (by decide)
    (by decide) (by decide) (by decide)

end CogdlUtils
